import Mathlib

/-!
Verification development for the TestGen repository: a shallow embedding of
the source analyzer sketch (parseCppFiles / extractFunctions), the file
uploader selection logic (addFiles), and the orchestration engine described
in the specification (coverage estimator, build validator, orchestrator
state machine), together with theorems settling the specified properties.
-/

namespace TestGen

/-! ## Character classes of the JavaScript regex engine (ASCII fragment)

The source regex is `/(\w+\s+\**\w+\s*\(.*?\)\s*{)/g` applied by
`String.prototype.match`. We embed the character classes used by that
pattern. The inputs of interest are ASCII, so the ASCII fragment of the
JavaScript classes is modelled. -/

/-- Class w of the regex engine: letters, digits and underscore. -/
def isWordChar (c : Char) : Bool :=
  c.isAlphanum || c == '_'

/-- Class s of the regex engine (ASCII part): space, tab, newline,
carriage return, vertical tab, form feed. -/
def isSpaceChar (c : Char) : Bool :=
  c == ' ' || c == '\t' || c == '\n' || c == '\r' || c == '\x0b' || c == '\x0c'

/-- Class of characters matched by the regex dot: anything except a line
terminator. -/
def isDotChar (c : Char) : Bool :=
  !(c == '\n' || c == '\r')

/-- Greedy span: the longest boolean-predicate run at the head of the list,
paired with the remaining characters. -/
def spanP (p : Char → Bool) : List Char → List Char × List Char
  | [] => ([], [])
  | c :: rest =>
    if p c then
      let s := spanP p rest
      (c :: s.1, s.2)
    else ([], c :: rest)

/-- Greedy one-or-more span (a plus-quantified class): fails on an empty
run. Because each class in the source pattern is disjoint from the class
that follows it, greedy maximal munch is exactly the backtracking
semantics of the engine on this pattern. -/
def takeWhile1 (p : Char → Bool) (s : List Char) : Option (List Char × List Char) :=
  match spanP p s with
  | ([], _) => none
  | (a, b) => some (a, b)

/-- Lazy tail of the pattern: matches the fragment consisting of a lazy
dot-star, a closing parenthesis, optional whitespace and an opening brace.
The lazy quantifier takes the shortest dot-matchable run whose following
closing parenthesis is followed, after greedy whitespace, by an opening
brace; on failure at one candidate parenthesis the run is extended past
it, as the backtracking engine does. Returns the matched characters and
the rest of the input. -/
def lazyTail : List Char → Option (List Char × List Char)
  | [] => none
  | c :: rest =>
    if c == ')' then
      match spanP isSpaceChar rest with
      | (ws, '{' :: rest2) => some (c :: (ws ++ ['{']), rest2)
      | _ =>
        match lazyTail rest with
        | some (m, r) => some (c :: m, r)
        | none => none
    else if isDotChar c then
      match lazyTail rest with
      | some (m, r) => some (c :: m, r)
      | none => none
    else none

/-- Attempt to match the whole source pattern at the head of the input:
a word run, a whitespace run, optional stars, a word run, optional
whitespace, a literal opening parenthesis, then the lazy tail. Returns
the matched characters and the rest of the input. -/
def matchAt (s : List Char) : Option (List Char × List Char) :=
  match takeWhile1 isWordChar s with
  | none => none
  | some (w1, s1) =>
    match takeWhile1 isSpaceChar s1 with
    | none => none
    | some (sp1, s2) =>
      match spanP (fun c => c == '*') s2 with
      | (stars, s3) =>
        match takeWhile1 isWordChar s3 with
        | none => none
        | some (w2, s4) =>
          match spanP isSpaceChar s4 with
          | (sp2, '(' :: s6) =>
            match lazyTail s6 with
            | none => none
            | some (tl, s7) => some (w1 ++ sp1 ++ stars ++ w2 ++ sp2 ++ '(' :: tl, s7)
          | _ => none

/-- Global scan of `String.prototype.match` with the g flag: walk the
input left to right; at each position emit the match found there and
resume after it, or advance one character. Every match consumes at least
one character, so the number of steps is bounded by the input length,
supplied as fuel. -/
def scanAllFuel : Nat → List Char → List (List Char)
  | 0, _ => []
  | _, [] => []
  | fuel + 1, c :: rest =>
    match matchAt (c :: rest) with
    | some (m, r) => m :: scanAllFuel fuel r
    | none => scanAllFuel fuel rest

/-- Global scan of the input, with fuel instantiated to the input length. -/
def scanAll (s : List Char) : List (List Char) :=
  scanAllFuel s.length s

/-- Embedding of content.match(functionRegex): null (here none) when there
is no match, otherwise the non-empty list of matched substrings. -/
def jsMatch (content : String) : Option (List String) :=
  match scanAll content.data with
  | [] => none
  | m :: ms => some ((m :: ms).map (fun l => String.mk l))

/-- Whitespace trim at both ends of a character list. -/
def trimChars (s : List Char) : List Char :=
  ((s.dropWhile isSpaceChar).reverse.dropWhile isSpaceChar).reverse

/-- Whitespace trim at both ends, as used by the source fn.trim() call. -/
def strTrim (s : String) : String :=
  String.mk (trimChars s.data)

/-- Embedding of extractFunctions from the source analyzer sketch:
match the function regex globally and trim each match; when match
returns null the result is the empty array. -/
def extractFunctions (content : String) : List String :=
  match jsMatch content with
  | some ms => ms.map strTrim
  | none => []

/-! ## parseCppFiles -/

/-- An uploaded file as seen by the analyzer sketch: a name and text
content. -/
structure InputFile where
  name : String
  content : String
deriving DecidableEq

/-- One entry of the analyzer output: the file name and the extracted
function strings. -/
structure ParsedFile where
  fileName : String
  functions : List String
deriving DecidableEq

/-- True when the suffix list ends the given list, the endsWith test of
the source. -/
def listEndsWith (s suf : List Char) : Bool :=
  s.drop (s.length - suf.length) == suf

/-- True when the string ends with the given suffix. -/
def strEndsWith (s suf : String) : Bool :=
  listEndsWith s.data suf.data

/-- Embedding of parseCppFiles: iterate over the files in order and, for
each file whose name ends with .cpp, push an entry with the extracted
functions of its content. -/
def parseCppFiles (files : List InputFile) : List ParsedFile :=
  files.foldl
    (fun parsedData file =>
      if strEndsWith file.name ".cpp" then
        parsedData ++ [{ fileName := file.name, functions := extractFunctions file.content }]
      else parsedData)
    []

/-! ## FileUploader addFiles -/

/-- Lower-casing of a string, character by character, the toLowerCase of
the source (ASCII fragment). -/
def strToLower (s : String) : String :=
  String.mk (s.data.map Char.toLower)

/-- The accepted C++ file extensions of the FileUploader. -/
def cppFileExtensions : List String :=
  [".cpp", ".hpp", ".h", ".cc", ".cxx", ".c++"]

/-- The accepted archive extensions of the FileUploader. -/
def zipFileExtensions : List String :=
  [".zip", ".tar.gz", ".tgz"]

/-- Upload mode of the FileUploader component. -/
inductive UploadMode
  | files
  | github
  | zip
deriving DecidableEq

/-- The component state touched by addFiles: the selected files (modelled
by their names) and the errors reported through the onError callback, in
order. -/
structure UploaderState where
  selectedFiles : List String
  errors : List String
deriving DecidableEq

/-- True when the file name, lower-cased, ends with one of the given
extensions. -/
def hasExtIn (exts : List String) (name : String) : Bool :=
  exts.any (fun ext => strEndsWith (strToLower name) ext)

/-- Embedding of addFiles: in zip mode keep the first archive file or
report an error; otherwise keep the input files with a valid C++
extension, in order, appending them to the current selection, and report
an error, leaving the selection unchanged, when none is valid. -/
def addFiles (mode : UploadMode) (files : List String) (st : UploaderState) : UploaderState :=
  if mode = UploadMode.zip then
    match files.find? (hasExtIn zipFileExtensions) with
    | some zipFile => { st with selectedFiles := [zipFile] }
    | none =>
      { st with errors := st.errors ++ ["Please select a valid archive file (.zip, .tar.gz, .tgz)"] }
  else
    let validFiles := files.filter (hasExtIn cppFileExtensions)
    if validFiles.length = 0 then
      { st with errors := st.errors ++ ["Please select C++ files (.cpp, .hpp, .h, .cc, .cxx, .c++)"] }
    else
      { st with selectedFiles := st.selectedFiles ++ validFiles }

/-! ## Coverage estimator

Modelled from the spec: the Coverage Estimator of the orchestration
engine is part of the backend core that is not present under src, so it
is modelled from the specification text of section 4.5: a symbol counts
as covered for a file if at least one GeneratedTest targeting that file
lists it among its exercised symbols; per-file coverage is covered over
total symbols (0 for a file with no symbols); overall coverage is covered
over total across the files with at least one symbol. -/

/-- A generated test, with the file it targets and the symbol names it
claims to exercise (fields source_file and functions_tested of the
GeneratedTest wire type). -/
structure GeneratedTest where
  filename : String
  content : String
  source_file : String
  functions_tested : List String
deriving DecidableEq

/-- Modelled from the spec: the symbols of a file covered by at least one
generated test that targets the file and claims the symbol. -/
def coveredSyms (syms : List String) (tests : List GeneratedTest) (file : String) : List String :=
  syms.filter (fun s => tests.any (fun t => t.source_file == file && t.functions_tested.contains s))

/-- Modelled from the spec: per-file coverage, covered over total symbols
of the file, and 0 when the file has no extracted symbols. -/
def perFileCoverage (syms : List String) (tests : List GeneratedTest) (file : String) : ℚ :=
  if syms.length = 0 then 0
  else (coveredSyms syms tests file).length / (syms.length : ℚ)

/-- Modelled from the spec: overall coverage, covered symbols over total
symbols across the files with at least one extracted symbol. -/
def overallCoverage (fileSyms : List (String × List String)) (tests : List GeneratedTest) : ℚ :=
  let withSyms := fileSyms.filter (fun p => !p.2.isEmpty)
  let total := (withSyms.map (fun p => p.2.length)).sum
  let covered := (withSyms.map (fun p => (coveredSyms p.2 tests p.1).length)).sum
  if total = 0 then 0 else (covered : ℚ) / (total : ℚ)

/-! ## Build validator

Modelled from the spec: the Build Validator of the orchestration engine
is part of the backend core that is not present under src, so its
diagnostic parsing is modelled from the specification text of section
4.4: a line of shape file colon line colon severity colon message maps to
a structured entry, anything else becomes an Info entry carrying the raw
line, and passed holds exactly when the exit status is success and no
entry has Error severity. -/

/-- Severity of a build log entry. -/
inductive Severity
  | Info
  | Warning
  | Error
deriving DecidableEq

/-- A structured build log entry. -/
structure BuildLogEntry where
  severity : Severity
  file : Option String
  line : Option Nat
  message : String
deriving DecidableEq

/-- Split a character list at colons. -/
def splitOnColon : List Char → List (List Char)
  | [] => [[]]
  | c :: rest =>
    let r := splitOnColon rest
    if c = ':' then [] :: r
    else
      match r with
      | [] => [[c]]
      | h :: t => (c :: h) :: t

/-- Parse a run of decimal digits into a number, failing on an empty or
non-digit run. -/
def digitsToNat : List Char → Option Nat
  | [] => none
  | s =>
    if s.all Char.isDigit then
      some (s.foldl (fun n c => n * 10 + (c.toNat - 48)) 0)
    else none

/-- Map a severity word of a diagnostic line to a severity. -/
def severityOfWord (w : String) : Option Severity :=
  if w = "error" then some Severity.Error
  else if w = "warning" then some Severity.Warning
  else if w = "note" then some Severity.Info
  else none

/-- Modelled from the spec: parse a diagnostic line of shape file colon
line colon severity colon message into a structured entry; none when the
line does not have that shape. -/
def parseDiag (l : String) : Option BuildLogEntry :=
  match splitOnColon l.data with
  | file :: lineStr :: sevStr :: rest =>
    if rest = [] then none
    else
      match digitsToNat lineStr, severityOfWord (strTrim (String.mk sevStr)) with
      | some n, some sev =>
        some { severity := sev, file := some (String.mk file), line := some n,
               message := strTrim (String.intercalate ":" (rest.map String.mk)) }
      | _, _ => none
  | _ => none

/-- Modelled from the spec: parse one line of the diagnostic stream; a
non-matching line is captured as an Info entry carrying the raw line. -/
def parseLine (l : String) : BuildLogEntry :=
  match parseDiag l with
  | some e => e
  | none => { severity := Severity.Info, file := none, line := none, message := l }

/-- Modelled from the spec: the validator outcome from the toolchain exit
status and the diagnostic lines; passed holds exactly when the exit
status indicates success and no parsed entry has Error severity. -/
def validateLogs (exitOk : Bool) (lines : List String) : Bool × List BuildLogEntry :=
  let entries := lines.map parseLine
  (exitOk && entries.all (fun e => e.severity != Severity.Error), entries)

/-! ## Orchestrator state machine

Modelled from the spec: the Orchestrator of the orchestration engine is
part of the backend core that is not present under src, so its Building
outcome policy and retry budgets are modelled from the specification text
of section 4.6: pass with coverage at least the threshold is Succeeded;
pass under the threshold consumes a refinement attempt or fails when none
remain; a failing build consumes a build-fix attempt or fails when none
remain; the two budgets are independent counters. -/

/-- Status of an orchestration run. -/
inductive OrchStatus
  | Queued
  | Analyzing
  | Generating
  | Building
  | Refining
  | BuildFixing
  | Succeeded
  | Failed
deriving DecidableEq

/-- Outcome of one Building step: the next state, carrying the remaining
budget of the consumed counter when a retry stage is entered. -/
inductive BuildingNext
  | succeeded
  | failed
  | refining (refineLeft : Nat)
  | buildFixing (buildFixLeft : Nat)
deriving DecidableEq

/-- Modelled from the spec: the Building outcome policy. The arguments are
the configured threshold, the remaining build-fix and refinement budgets,
whether the build passed, and the estimated coverage. -/
def buildingNext (threshold : ℚ) (buildFixLeft refineLeft : Nat) (passed : Bool) (cov : ℚ) : BuildingNext :=
  if passed then
    if threshold ≤ cov then BuildingNext.succeeded
    else
      match refineLeft with
      | 0 => BuildingNext.failed
      | r + 1 => BuildingNext.refining r
  else
    match buildFixLeft with
    | 0 => BuildingNext.failed
    | b + 1 => BuildingNext.buildFixing b

/-- Modelled from the spec: the run loop from one Building attempt
onwards. outcomes gives, for each Building attempt index, whether the
build passed and the estimated coverage. Returns the total number of
Building attempts performed and the terminal status. Each retry consumes
one unit of the corresponding budget, so the loop terminates. -/
def runFrom (threshold : ℚ) (outcomes : Nat → Bool × ℚ) (attempt bf rf : Nat) : Nat × OrchStatus :=
  if (outcomes attempt).1 then
    if threshold ≤ (outcomes attempt).2 then (attempt + 1, OrchStatus.Succeeded)
    else
      match rf with
      | 0 => (attempt + 1, OrchStatus.Failed)
      | r + 1 => runFrom threshold outcomes (attempt + 1) bf r
  else
    match bf with
    | 0 => (attempt + 1, OrchStatus.Failed)
    | b + 1 => runFrom threshold outcomes (attempt + 1) b rf
termination_by bf + rf
decreasing_by
  all_goals omega

/-! ## Supporting lemmas for the regex scan

The lemmas below justify the fuel instantiation of the global scan: every
successful match consumes at least one character, so fuel equal to the
input length never truncates the scan. -/

lemma spanP_append (p : Char → Bool) : ∀ s : List Char, (spanP p s).1 ++ (spanP p s).2 = s := by
  intro s
  induction s with
  | nil => rfl
  | cons c rest ih =>
    rw [spanP]
    by_cases h : p c <;> simp [h, ih]

lemma takeWhile1_eq (p : Char → Bool) (s a b : List Char) (h : takeWhile1 p s = some (a, b)) :
    a ≠ [] ∧ a ++ b = s := by
  rw [takeWhile1] at h
  cases hsp : spanP p s with
  | mk x y =>
    rw [hsp] at h
    cases x with
    | nil => simp at h
    | cons c cs =>
      simp only [Option.some.injEq, Prod.mk.injEq] at h
      obtain ⟨ha, hb⟩ := h
      subst ha
      subst hb
      refine ⟨by simp, ?_⟩
      have := spanP_append p s
      rw [hsp] at this
      exact this

lemma lazyTail_append : ∀ s m r : List Char, lazyTail s = some (m, r) → m ++ r = s := by
  intro s
  induction s with
  | nil => intro m r h; simp [lazyTail] at h
  | cons c rest ih =>
    intro m r h
    rw [lazyTail] at h
    split at h
    · split at h
      · rename_i ws rest2 heq
        simp only [Option.some.injEq, Prod.mk.injEq] at h
        obtain ⟨hm, hr⟩ := h
        have hsp : ws ++ '{' :: rest2 = rest := by
          have := spanP_append isSpaceChar rest
          rw [heq] at this
          exact this
        rw [← hm, ← hr, ← hsp]
        simp
      · split at h
        · rename_i m' r' heq
          simp only [Option.some.injEq, Prod.mk.injEq] at h
          obtain ⟨hm, hr⟩ := h
          rw [← hm, ← hr]
          simp [ih m' r' heq]
        · exact absurd h (by simp)
    · split at h
      · split at h
        · rename_i m' r' heq
          simp only [Option.some.injEq, Prod.mk.injEq] at h
          obtain ⟨hm, hr⟩ := h
          rw [← hm, ← hr]
          simp [ih m' r' heq]
        · exact absurd h (by simp)
      · exact absurd h (by simp)

lemma matchAt_eq (s m r : List Char) (h : matchAt s = some (m, r)) :
    m ≠ [] ∧ m ++ r = s := by
  rw [matchAt] at h
  split at h
  · exact absurd h (by simp)
  · rename_i w1 s1 h1
    split at h
    · exact absurd h (by simp)
    · rename_i sp1 s2 h2
      split at h
      rename_i stars s3 h3
      split at h
      · exact absurd h (by simp)
      · rename_i w2 s4 h4
        split at h
        · rename_i sp2 s6 h5
          split at h
          · exact absurd h (by simp)
          · rename_i tl s7 h6
            simp only [Option.some.injEq, Prod.mk.injEq] at h
            obtain ⟨hm, hr⟩ := h
            obtain ⟨hw1ne, hw1⟩ := takeWhile1_eq _ _ _ _ h1
            obtain ⟨hsp1ne, hsp1⟩ := takeWhile1_eq _ _ _ _ h2
            have hst : stars ++ s3 = s2 := by
              have := spanP_append (fun c => c == '*') s2
              rw [h3] at this
              exact this
            obtain ⟨hw2ne, hw2⟩ := takeWhile1_eq _ _ _ _ h4
            have hsp2 : sp2 ++ '(' :: s6 = s4 := by
              have := spanP_append isSpaceChar s4
              rw [h5] at this
              exact this
            have htl := lazyTail_append s6 tl s7 h6
            constructor
            · rw [← hm]
              simp
            · rw [← hm, ← hr]
              calc (w1 ++ sp1 ++ stars ++ w2 ++ sp2 ++ '(' :: tl) ++ s7
                  = w1 ++ (sp1 ++ (stars ++ (w2 ++ (sp2 ++ '(' :: (tl ++ s7))))) := by
                    simp [List.append_assoc]
                _ = w1 ++ (sp1 ++ (stars ++ (w2 ++ (sp2 ++ '(' :: s6)))) := by rw [htl]
                _ = w1 ++ (sp1 ++ (stars ++ (w2 ++ s4))) := by rw [hsp2]
                _ = w1 ++ (sp1 ++ (stars ++ s3)) := by rw [hw2]
                _ = w1 ++ (sp1 ++ s2) := by rw [hst]
                _ = w1 ++ s1 := by rw [hsp1]
                _ = s := hw1
        · exact absurd h (by simp)

lemma matchAt_rest_lt (s m r : List Char) (h : matchAt s = some (m, r)) :
    r.length < s.length := by
  obtain ⟨hne, happ⟩ := matchAt_eq s m r h
  have : m.length + r.length = s.length := by
    rw [← happ, List.length_append]
  have hm : 0 < m.length := List.length_pos.2 hne
  omega

lemma scanAllFuel_nil (fuel : Nat) : scanAllFuel fuel [] = [] := by
  cases fuel <;> rfl

lemma scanAllFuel_congr :
    ∀ (n : Nat) (s : List Char), s.length ≤ n → ∀ f1 f2 : Nat,
      s.length ≤ f1 → s.length ≤ f2 → scanAllFuel f1 s = scanAllFuel f2 s := by
  intro n
  induction n with
  | zero =>
    intro s hs f1 f2 _ _
    have : s = [] := List.length_eq_zero.1 (Nat.le_zero.1 hs)
    subst this
    rw [scanAllFuel_nil, scanAllFuel_nil]
  | succ k ih =>
    intro s hs f1 f2 h1 h2
    cases s with
    | nil => rw [scanAllFuel_nil, scanAllFuel_nil]
    | cons c rest =>
      cases f1 with
      | zero => simp at h1
      | succ a =>
        cases f2 with
        | zero => simp at h2
        | succ b =>
          rw [scanAllFuel, scanAllFuel]
          cases hm : matchAt (c :: rest) with
          | none =>
            simp only [List.length_cons] at hs h1 h2
            exact ih rest (by omega) a b (by omega) (by omega)
          | some p =>
            cases p with
            | mk m r =>
              have hlt := matchAt_rest_lt (c :: rest) m r hm
              simp only [List.length_cons] at hs h1 h2 hlt
              show m :: scanAllFuel a r = m :: scanAllFuel b r
              rw [ih r (by omega) a b (by omega) (by omega)]

lemma scanAllFuel_eq_scanAll (fuel : Nat) (s : List Char) (h : s.length ≤ fuel) :
    scanAllFuel fuel s = scanAll s :=
  scanAllFuel_congr s.length s le_rfl fuel s.length h le_rfl

/-! ## Supporting lemmas for the orchestrator -/

lemma runFrom_succeeded_elim (θ : ℚ) (o : Nat → Bool × ℚ) :
    ∀ fuel a bf rf, bf + rf ≤ fuel → (runFrom θ o a bf rf).2 = OrchStatus.Succeeded →
      ∃ n, (o n).1 = true ∧ θ ≤ (o n).2 := by
  intro fuel
  induction fuel with
  | zero =>
    intro a bf rf hle h
    have hbf : bf = 0 := by omega
    have hrf : rf = 0 := by omega
    subst hbf hrf
    rw [runFrom.eq_def] at h
    by_cases hp : (o a).1 = true
    · by_cases hc : θ ≤ (o a).2
      · exact ⟨a, hp, hc⟩
      · simp [hp, hc] at h
    · simp [hp] at h
  | succ f ih =>
    intro a bf rf hle h
    rw [runFrom.eq_def] at h
    by_cases hp : (o a).1 = true
    · by_cases hc : θ ≤ (o a).2
      · exact ⟨a, hp, hc⟩
      · simp only [hp, if_true, hc, if_false] at h
        cases rf with
        | zero => simp at h
        | succ r => exact ih (a + 1) bf r (by omega) h
    · simp only [hp] at h
      cases bf with
      | zero => simp at h
      | succ b => exact ih (a + 1) b rf (by omega) h

lemma runFrom_attempts_le (θ : ℚ) (o : Nat → Bool × ℚ) :
    ∀ fuel a bf rf, bf + rf ≤ fuel → (runFrom θ o a bf rf).1 ≤ a + 1 + bf + rf := by
  intro fuel
  induction fuel with
  | zero =>
    intro a bf rf hle
    have hbf : bf = 0 := by omega
    have hrf : rf = 0 := by omega
    subst hbf hrf
    rw [runFrom.eq_def]
    by_cases hp : (o a).1 = true
    · by_cases hc : θ ≤ (o a).2 <;> simp [hp, hc]
    · simp [hp]
  | succ f ih =>
    intro a bf rf hle
    rw [runFrom.eq_def]
    by_cases hp : (o a).1 = true
    · by_cases hc : θ ≤ (o a).2
      · simp only [hp, if_true, hc]
        omega
      · simp only [hp, if_true, hc, if_false]
        cases rf with
        | zero => simp
        | succ r =>
          show (runFrom θ o (a + 1) bf r).1 ≤ a + 1 + bf + (r + 1)
          have := ih (a + 1) bf r (by omega)
          omega
    · simp only [hp, if_false]
      cases bf with
      | zero => simp
      | succ b =>
        show (runFrom θ o (a + 1) b rf).1 ≤ a + 1 + (b + 1) + rf
        have := ih (a + 1) b rf (by omega)
        omega

lemma runFrom_terminal (θ : ℚ) (o : Nat → Bool × ℚ) :
    ∀ fuel a bf rf, bf + rf ≤ fuel →
      (runFrom θ o a bf rf).2 = OrchStatus.Succeeded ∨ (runFrom θ o a bf rf).2 = OrchStatus.Failed := by
  intro fuel
  induction fuel with
  | zero =>
    intro a bf rf hle
    have hbf : bf = 0 := by omega
    have hrf : rf = 0 := by omega
    subst hbf hrf
    rw [runFrom.eq_def]
    by_cases hp : (o a).1 = true
    · by_cases hc : θ ≤ (o a).2 <;> simp [hp, hc]
    · simp [hp]
  | succ f ih =>
    intro a bf rf hle
    rw [runFrom.eq_def]
    by_cases hp : (o a).1 = true
    · by_cases hc : θ ≤ (o a).2
      · simp [hp, hc]
      · simp only [hp, if_true, hc, if_false]
        cases rf with
        | zero => simp
        | succ r => exact ih (a + 1) bf r (by omega)
    · simp only [hp, if_false]
      cases bf with
      | zero => simp
      | succ b => exact ih (a + 1) b rf (by omega)

/-! ## Supporting lemmas for the coverage estimator -/

lemma length_filter_cover {α : Type} (q q' : α → Bool) :
    ∀ (l : List α) (S : α), l.Nodup → S ∈ l → q S = false → q' S = true →
      (∀ s, s ≠ S → q' s = q s) → (l.filter q').length = (l.filter q).length + 1 := by
  intro l
  induction l with
  | nil => intro S _ hS; cases hS
  | cons x xs ih =>
    intro S hnd hS hqS hq'S hagree
    rcases List.mem_cons.1 hS with hx | hxs
    · subst hx
      have hnot : S ∉ xs := (List.nodup_cons.1 hnd).1
      have hcongr : xs.filter q' = xs.filter q :=
        List.filter_congr (fun s hs => hagree s (fun he => hnot (he ▸ hs)))
      simp [List.filter_cons, hqS, hq'S, hcongr]
    · have hxS : x ≠ S := fun he => (List.nodup_cons.1 hnd).1 (he ▸ hxs)
      have hx : q' x = q x := hagree x hxS
      have ihr := ih S (List.nodup_cons.1 hnd).2 hxs hqS hq'S hagree
      cases hqx : q x with
      | true => simp [List.filter_cons, hx, hqx, ihr]
      | false => simp [List.filter_cons, hqx, hx, ihr]

lemma coveredSyms_cons (syms : List String) (tests : List GeneratedTest)
    (t' : GeneratedTest) (file : String) :
    coveredSyms syms (t' :: tests) file =
      syms.filter (fun s => (t'.source_file == file && t'.functions_tested.contains s)
        || tests.any (fun t => t.source_file == file && t.functions_tested.contains s)) := by
  simp [coveredSyms, List.any_cons]

lemma testCovers_iff (t : GeneratedTest) (file s : String) :
    ((t.source_file == file && t.functions_tested.contains s) = true)
      ↔ (t.source_file = file ∧ s ∈ t.functions_tested) := by
  simp [List.contains]

/-! ## Supporting lemma for parseCppFiles -/

lemma parseCppFiles_foldl (files : List InputFile) :
    ∀ acc : List ParsedFile,
      files.foldl
        (fun parsedData file =>
          if strEndsWith file.name ".cpp" then
            parsedData ++ [{ fileName := file.name, functions := extractFunctions file.content }]
          else parsedData)
        acc
      = acc ++ (files.filter (fun f => strEndsWith f.name ".cpp")).map
          (fun f => { fileName := f.name, functions := extractFunctions f.content }) := by
  induction files with
  | nil => intro acc; simp
  | cons f fs ih =>
    intro acc
    rw [List.foldl_cons]
    cases h : strEndsWith f.name ".cpp" with
    | true => simp [ih, List.filter_cons, h]
    | false => simp [ih, List.filter_cons, h]

/-! ## Claims -/

/-- C1: the claim states that declarations are extracted by a tokenizer
that ignores string literal and comment contents, so that a declaration
inside a string literal is never extracted. The source extractFunctions
instead applies a naive regex to the raw text: on a file whose only
function-like text sits inside a string literal, the function-like text
is extracted anyway. -/
theorem C1_extractFunctions_matches_inside_string_literal :
    extractFunctions "const char* s = \"int f() \x7b return 0; \x7d\";" = ["int f() \x7b"] := by
  decide

/-- C2: per-file coverage is covered over total symbols, 0 for a file
with no extracted symbols, such a file is excluded from the overall
average, and on the scenario with symbols add and subtract and one test
claiming add both the per-file and the overall coverage are one half. -/
theorem C2_coverage_estimator :
    (∀ tests file, perFileCoverage [] tests file = 0)
    ∧ (∀ fileSyms tests name, overallCoverage ((name, ([] : List String)) :: fileSyms) tests
        = overallCoverage fileSyms tests)
    ∧ perFileCoverage ["add", "subtract"]
        [⟨"math_test.cpp", "TEST", "math.cpp", ["add"]⟩] "math.cpp" = 1/2
    ∧ overallCoverage [("math.cpp", ["add", "subtract"])]
        [⟨"math_test.cpp", "TEST", "math.cpp", ["add"]⟩] = 1/2 := by
  refine ⟨?_, ?_, ?_, ?_⟩
  · intro tests file
    simp [perFileCoverage]
  · intro fileSyms tests name
    rw [overallCoverage, overallCoverage]
    simp [List.filter]
  · have h : coveredSyms ["add", "subtract"]
        [⟨"math_test.cpp", "TEST", "math.cpp", ["add"]⟩] "math.cpp" = ["add"] := by decide
    rw [perFileCoverage, h]
    norm_num
  · have h : coveredSyms ["add", "subtract"]
        [⟨"math_test.cpp", "TEST", "math.cpp", ["add"]⟩] "math.cpp" = ["add"] := by decide
    rw [overallCoverage]
    simp only [List.filter, List.map, h]
    norm_num

/-- C3: the Building step yields the Succeeded state exactly when the
build passed and coverage reaches the threshold; a run reaching
Succeeded contains a Building attempt that passed with coverage at least
the threshold; and on the scenario with threshold 0.8, refinement budget
2, a clean build and coverage 0.5, the step enters Refining with one
attempt consumed, not Succeeded. -/
theorem C3_succeeded_only_with_pass_and_coverage :
    (∀ (θ : ℚ) (bf rf : Nat) (p : Bool) (c : ℚ),
        buildingNext θ bf rf p c = BuildingNext.succeeded ↔ (p = true ∧ θ ≤ c))
    ∧ (∀ (θ : ℚ) (o : Nat → Bool × ℚ) (a bf rf : Nat),
        (runFrom θ o a bf rf).2 = OrchStatus.Succeeded → ∃ n, (o n).1 = true ∧ θ ≤ (o n).2)
    ∧ (∀ (o : Nat → Bool × ℚ) (bf : Nat), o 0 = (true, 1/2) →
        buildingNext (4/5) bf 2 (o 0).1 (o 0).2 = BuildingNext.refining 1
        ∧ runFrom (4/5) o 0 bf 2 = runFrom (4/5) o 1 bf 1) := by
  refine ⟨?_, ?_, ?_⟩
  · intro θ bf rf p c
    constructor
    · intro h
      rw [buildingNext.eq_def] at h
      by_cases hp : p = true
      · by_cases hc : θ ≤ c
        · exact ⟨hp, hc⟩
        · simp only [hp, if_true, hc, if_false] at h
          cases rf <;> simp at h
      · simp only [hp, if_false] at h
        cases bf <;> simp at h
    · rintro ⟨hp, hc⟩
      rw [buildingNext.eq_def]
      simp [hp, hc]
  · intro θ o a bf rf h
    exact runFrom_succeeded_elim θ o (bf + rf) a bf rf le_rfl h
  · intro o bf h
    constructor
    · rw [h, buildingNext.eq_def]
      norm_num
    · rw [runFrom.eq_def]
      rw [h]
      norm_num

/-- C3 witness: the theorem instantiated at concrete run outcomes. -/
theorem C3_witness :
    buildingNext (4/5) 3 2 (true, (1:ℚ)/2).1 (true, (1:ℚ)/2).2 = BuildingNext.refining 1
    ∧ (∃ n, ((fun _ => (true, (1:ℚ))) n).1 = true
        ∧ (1/2 : ℚ) ≤ ((fun (_ : Nat) => (true, (1:ℚ))) n).2) := by
  constructor
  · exact (C3_succeeded_only_with_pass_and_coverage.2.2 (fun _ => (true, 1/2)) 3 rfl).1
  · exact C3_succeeded_only_with_pass_and_coverage.2.1 (1/2) (fun _ => (true, 1)) 0 0 0
      (by rw [runFrom.eq_def]; norm_num)

/-- C4: every run terminates with the number of Building attempts bounded
by one plus the two independent budgets, the final state is terminal
(Succeeded or Failed), and a run with zero budgets whose first build
fails ends Failed after exactly one Building attempt. -/
theorem C4_run_terminates :
    (∀ (θ : ℚ) (o : Nat → Bool × ℚ) (a bf rf : Nat),
        (runFrom θ o a bf rf).1 ≤ a + 1 + bf + rf
        ∧ ((runFrom θ o a bf rf).2 = OrchStatus.Succeeded
            ∨ (runFrom θ o a bf rf).2 = OrchStatus.Failed))
    ∧ (∀ (θ : ℚ) (o : Nat → Bool × ℚ), (o 0).1 = false →
        runFrom θ o 0 0 0 = (1, OrchStatus.Failed)) := by
  constructor
  · intro θ o a bf rf
    exact ⟨runFrom_attempts_le θ o (bf + rf) a bf rf le_rfl,
           runFrom_terminal θ o (bf + rf) a bf rf le_rfl⟩
  · intro θ o h
    rw [runFrom.eq_def]
    simp [h]

/-- C4 witness: the theorem instantiated at a run whose first build
fails with zero budgets. -/
theorem C4_witness :
    runFrom 1 (fun _ => (false, 0)) 0 0 0 = (1, OrchStatus.Failed)
    ∧ (runFrom 1 (fun _ => (false, 0)) 0 0 0).1 ≤ 0 + 1 + 0 + 0 := by
  exact ⟨C4_run_terminates.2 1 (fun _ => (false, 0)) rfl,
         (C4_run_terminates.1 1 (fun _ => (false, 0)) 0 0 0).1⟩

/-- C5: passed holds exactly when the exit status indicates success and
no entry has Error severity; the scenario diagnostic line is parsed into
the structured Error entry and makes passed false; and a non-matching
line becomes an Info entry carrying the raw line. -/
theorem C5_build_validator :
    (∀ exitOk lines, (validateLogs exitOk lines).1 = true ↔
        (exitOk = true ∧ ∀ e ∈ (validateLogs exitOk lines).2, e.severity ≠ Severity.Error))
    ∧ parseLine "math_test.cpp:12: error: undeclared identifier" =
        { severity := Severity.Error, file := some "math_test.cpp", line := some 12,
          message := "undeclared identifier" }
    ∧ (validateLogs true ["math_test.cpp:12: error: undeclared identifier"]).1 = false
    ∧ (∀ l, parseDiag l = none → parseLine l =
        { severity := Severity.Info, file := none, line := none, message := l }) := by
  refine ⟨?_, by decide, by decide, ?_⟩
  · intro exitOk lines
    simp only [validateLogs, Bool.and_eq_true, List.all_eq_true, bne_iff_ne, ne_eq]
  · intro l h
    rw [parseLine, h]

/-- C5 witness: the theorem instantiated at a plain non-diagnostic line
and an empty log. -/
theorem C5_witness :
    parseLine "linking project" =
      { severity := Severity.Info, file := none, line := none, message := "linking project" }
    ∧ ((validateLogs true []).1 = true ↔
        (true = true ∧ ∀ e ∈ (validateLogs true []).2, e.severity ≠ Severity.Error)) := by
  exact ⟨C5_build_validator.2.2.2 "linking project" (by decide),
         C5_build_validator.1 true []⟩

/-- C6: for a file with distinct extracted symbols, a test claiming a
symbol of the file raises the coverage numerator by exactly one when the
symbol was uncovered, and leaves it unchanged when another test already
claims the symbol: coveredness is set membership, not a count. -/
theorem C6_coverage_numerator_is_set_membership :
    ∀ (syms : List String) (tests : List GeneratedTest) (file S : String) (t' : GeneratedTest),
      syms.Nodup → S ∈ syms → t'.source_file = file → t'.functions_tested = [S] →
      (((∀ t ∈ tests, ¬(t.source_file = file ∧ S ∈ t.functions_tested)) →
          (coveredSyms syms (t' :: tests) file).length = (coveredSyms syms tests file).length + 1)
        ∧ ((∃ t ∈ tests, t.source_file = file ∧ S ∈ t.functions_tested) →
          (coveredSyms syms (t' :: tests) file).length = (coveredSyms syms tests file).length)) := by
  intro syms tests file S t' hnd hS hf hc
  have ht' : ∀ s, (t'.source_file == file && t'.functions_tested.contains s) = (s == S) := by
    intro s
    rw [hf, hc]
    by_cases h : s = S <;> simp [List.contains, h]
  constructor
  · intro hno
    have hq : (tests.any (fun t => t.source_file == file && t.functions_tested.contains S))
        = false := by
      rw [List.any_eq_false]
      intro t ht
      rw [testCovers_iff]
      exact hno t ht
    have hq'S : ((t'.source_file == file && t'.functions_tested.contains S)
        || tests.any (fun t => t.source_file == file && t.functions_tested.contains S)) = true := by
      rw [Bool.or_eq_true]
      exact Or.inl ((testCovers_iff t' file S).2 ⟨hf, by simp [hc]⟩)
    have hagree : ∀ s, s ≠ S →
        ((t'.source_file == file && t'.functions_tested.contains s)
          || tests.any (fun t => t.source_file == file && t.functions_tested.contains s))
        = tests.any (fun t => t.source_file == file && t.functions_tested.contains s) := by
      intro s hs
      have hA : (t'.source_file == file && t'.functions_tested.contains s) = false :=
        (ht' s).trans (by simp [hs])
      rw [hA, Bool.false_or]
    rw [coveredSyms_cons, coveredSyms]
    exact length_filter_cover _ _ syms S hnd hS hq hq'S hagree
  · intro hex
    have hpt : ∀ s ∈ syms,
        ((t'.source_file == file && t'.functions_tested.contains s)
          || tests.any (fun t => t.source_file == file && t.functions_tested.contains s))
        = tests.any (fun t => t.source_file == file && t.functions_tested.contains s) := by
      intro s _
      by_cases hsS : s = S
      · subst hsS
        have hB : (tests.any (fun t => t.source_file == file && t.functions_tested.contains s))
            = true := by
          rw [List.any_eq_true]
          obtain ⟨t, ht, h1, h2⟩ := hex
          exact ⟨t, ht, (testCovers_iff t file s).2 ⟨h1, h2⟩⟩
        rw [hB, Bool.or_true]
      · have hA : (t'.source_file == file && t'.functions_tested.contains s) = false :=
          (ht' s).trans (by simp [hsS])
        rw [hA, Bool.false_or]
    rw [coveredSyms_cons, coveredSyms]
    exact congrArg List.length (List.filter_congr hpt)

/-- C6 witness: the theorem instantiated at the add and subtract symbols
with a fresh claim and with a duplicate claim. -/
theorem C6_witness :
    (coveredSyms ["add", "subtract"]
        [⟨"t1", "TEST", "math.cpp", ["add"]⟩] "math.cpp").length
      = (coveredSyms ["add", "subtract"] ([] : List GeneratedTest) "math.cpp").length + 1
    ∧ (coveredSyms ["add", "subtract"]
        [⟨"t2", "TEST2", "math.cpp", ["add"]⟩, ⟨"t1", "TEST", "math.cpp", ["add"]⟩] "math.cpp").length
      = (coveredSyms ["add", "subtract"] [⟨"t1", "TEST", "math.cpp", ["add"]⟩] "math.cpp").length := by
  constructor
  · exact (C6_coverage_numerator_is_set_membership ["add", "subtract"] []
      "math.cpp" "add" ⟨"t1", "TEST", "math.cpp", ["add"]⟩
      (by decide) (by decide) rfl rfl).1 (by simp)
  · exact (C6_coverage_numerator_is_set_membership ["add", "subtract"]
      [⟨"t1", "TEST", "math.cpp", ["add"]⟩]
      "math.cpp" "add" ⟨"t2", "TEST2", "math.cpp", ["add"]⟩
      (by decide) (by decide) rfl rfl).2 ⟨⟨"t1", "TEST", "math.cpp", ["add"]⟩, by simp, rfl, by simp⟩

/-- C7: the analysis is a pure function of the input text: two runs on
identical input produce identical results, for the per-file extraction
and for the whole file list. -/
theorem C7_analysis_deterministic_and_idempotent :
    (∀ c₁ c₂ : String, c₁ = c₂ → extractFunctions c₁ = extractFunctions c₂)
    ∧ (∀ fs₁ fs₂ : List InputFile, fs₁ = fs₂ → parseCppFiles fs₁ = parseCppFiles fs₂) :=
  ⟨fun _ _ h => congrArg extractFunctions h, fun _ _ h => congrArg parseCppFiles h⟩

/-- C7 witness: the theorem instantiated at a concrete file. -/
theorem C7_witness :
    extractFunctions "int add(int a, int b) \x7b" = extractFunctions "int add(int a, int b) \x7b"
    ∧ parseCppFiles [⟨"math.cpp", "int add(int a, int b) \x7b"⟩]
      = parseCppFiles [⟨"math.cpp", "int add(int a, int b) \x7b"⟩] :=
  ⟨C7_analysis_deterministic_and_idempotent.1 _ _ rfl,
   C7_analysis_deterministic_and_idempotent.2 _ _ rfl⟩

/-- C8: parseCppFiles emits exactly one entry per file whose name ends
with .cpp, in input order, and files with any other extension contribute
no entry. -/
theorem C8_parseCppFiles_one_entry_per_cpp_file :
    (∀ files : List InputFile,
        parseCppFiles files
          = (files.filter (fun f => strEndsWith f.name ".cpp")).map
              (fun f => { fileName := f.name, functions := extractFunctions f.content }))
    ∧ (∀ c₁ c₂ c₃ c₄ : String,
        parseCppFiles [⟨"a.hpp", c₁⟩, ⟨"b.h", c₂⟩, ⟨"c.cc", c₃⟩, ⟨"d.cxx", c₄⟩] = []) := by
  constructor
  · intro files
    rw [parseCppFiles, parseCppFiles_foldl]
    simp
  · intro c₁ c₂ c₃ c₄
    rfl

/-- C9: extractFunctions is total: when the regex match yields no result
the function returns the empty list, and otherwise it returns the list
of trimmed match strings. -/
theorem C9_extractFunctions_total :
    (∀ content, jsMatch content = none → extractFunctions content = [])
    ∧ (∀ content ms, jsMatch content = some ms → extractFunctions content = ms.map strTrim) := by
  constructor
  · intro content h
    rw [extractFunctions, h]
  · intro content ms h
    rw [extractFunctions, h]

/-- C9 witness: the theorem instantiated at a matchless input and at an
input with one match. -/
theorem C9_witness :
    extractFunctions "hello" = []
    ∧ extractFunctions "int f() \x7b" = ["int f() \x7b"].map strTrim :=
  ⟨C9_extractFunctions_total.1 "hello" (by decide),
   C9_extractFunctions_total.2 "int f() \x7b" ["int f() \x7b"] (by decide)⟩

/-- C10: in individual-files mode, addFiles appends exactly the input
files whose lower-cased names end with one of the C++ extensions, in
order; when no input file is valid the error callback fires and the
selection is unchanged. -/
theorem C10_addFiles_files_mode :
    (∀ (files : List String) (st : UploaderState),
        files.filter (hasExtIn cppFileExtensions) ≠ [] →
        addFiles UploadMode.files files st =
          { st with selectedFiles := st.selectedFiles ++ files.filter (hasExtIn cppFileExtensions) })
    ∧ (∀ (files : List String) (st : UploaderState),
        files.filter (hasExtIn cppFileExtensions) = [] →
        addFiles UploadMode.files files st =
          { st with errors := st.errors ++ ["Please select C++ files (.cpp, .hpp, .h, .cc, .cxx, .c++)"] })
    ∧ (∀ name : String, hasExtIn cppFileExtensions name = true ↔
        ∃ ext ∈ cppFileExtensions, strEndsWith (strToLower name) ext = true) := by
  refine ⟨?_, ?_, ?_⟩
  · intro files st h
    rw [addFiles]
    rw [if_neg (by simp)]
    rw [if_neg (by simp [List.length_eq_zero, h])]
  · intro files st h
    rw [addFiles]
    rw [if_neg (by simp)]
    rw [if_pos (by simp [h])]
  · intro name
    simp [hasExtIn, List.any_eq_true]

/-- C10 witness: the theorem instantiated at a mixed upload (one
upper-case extension, one invalid) and at an upload with no valid
file. -/
theorem C10_witness :
    addFiles UploadMode.files ["a.CPP", "notes.txt", "c.h"] ⟨["x.cpp"], []⟩
      = ⟨["x.cpp", "a.CPP", "c.h"], []⟩
    ∧ addFiles UploadMode.files ["notes.txt"] ⟨["x.cpp"], []⟩
      = ⟨["x.cpp"], ["Please select C++ files (.cpp, .hpp, .h, .cc, .cxx, .c++)"]⟩ := by
  constructor
  · have h := C10_addFiles_files_mode.1 ["a.CPP", "notes.txt", "c.h"] ⟨["x.cpp"], []⟩ (by decide)
    rw [h]
    decide
  · have h := C10_addFiles_files_mode.2.1 ["notes.txt"] ⟨["x.cpp"], []⟩ (by decide)
    rw [h]
    rfl

end TestGen
